import Mathlib

/-!
Verification development for the Wordle agent in `wordle.py`.

Words are modelled as `List Char`; feedback patterns are `List Char` over the
mark characters `'+'` (Hit), `'*'` (Present), `'-'` (Miss).  Python `set`s of
words become `Finset (List Char)`; where Python iterates a set or a dict in
its (deterministic within one run, but unspecified) order, the model takes an
explicit list.  Fallible operations (dictionary `KeyError` / `IndexError`,
`random.choice` on an empty list) are modelled with `Option`, `none` standing
for a raised exception.
-/

namespace Wordle

abbrev Word := List Char

/-- Constraint atoms, mirroring the string-keyed constraints of
`parse_dictionary`:
* `pos l i`         ↔ `(l, "%d" % i)` — letter `l` at index `i`
* `notPos l i`      ↔ `(l, "NOT-%d" % i)` — word contains `l`, not at index `i`
* `multExact l n`   ↔ `(l, "MULT-%d" % n)` — exactly `n` occurrences of `l`
* `multAtLeast l n` ↔ `(l, "MULT-%d+" % n)` — at least `n` occurrences of `l`
* `absent l`        ↔ `(l, "NONE")` — word does not contain `l` -/
inductive Constraint where
  | pos (l : Char) (i : Nat)
  | notPos (l : Char) (i : Nat)
  | multExact (l : Char) (n : Nat)
  | multAtLeast (l : Char) (n : Nat)
  | absent (l : Char)
deriving DecidableEq, Repr

/-- The letter (first tuple component) of a constraint. -/
def Constraint.letter : Constraint → Char
  | .pos l _ => l
  | .notPos l _ => l
  | .multExact l _ => l
  | .multAtLeast l _ => l
  | .absent l => l

/-- The distinct letters of a word in first-occurrence order.  Stands for
Python's `set(guess)` as it is iterated when building and traversing the
`guess_frequencies` dict: both `get_constraints_from_pattern` and
`get_constraints_from_target` iterate `set(guess)` for the same `guess`, so
within one comparison they see the same letters in the same order; the model
fixes that shared order to first occurrence. -/
def distinctLetters : List Char → List Char
  | [] => []
  | c :: rest => c :: (distinctLetters rest).filter (fun x => decide (x ≠ c))

theorem mem_of_mem_distinctLetters {c : Char} : ∀ {l : List Char},
    c ∈ distinctLetters l → c ∈ l
  | [], h => by simp [distinctLetters] at h
  | a :: rest, h => by
    rw [distinctLetters] at h
    rcases List.mem_cons.1 h with h | h
    · exact h ▸ List.mem_cons_self a rest
    · exact List.mem_cons_of_mem _ (mem_of_mem_distinctLetters (List.mem_of_mem_filter h))

/-- `confirmed guess pattern g` is the final value `target_frequencies[g]`
computed by the first loop of `get_constraints_from_pattern`: the number of
positions `i` where `pattern[i]` is `'+'` or `'*'` and `guess[i] = g`. -/
def confirmed (guess pattern : List Char) (g : Char) : Nat :=
  List.countP (fun p => decide (p.1 = g ∧ (p.2 = '+' ∨ p.2 = '*'))) (guess.zip pattern)

/-- `get_constraints_from_pattern` (wordle.py lines 113–143).  The first list
is the positional loop over `enumerate(pattern)` (a `'+'` yields a `pos` atom,
a `'*'` a `notPos` atom); the second is the loop over `guess_frequencies`
emitting the non-positional atom for each distinct guess letter. -/
def get_constraints_from_pattern (guess pattern : List Char) : List Constraint :=
  ((guess.zip pattern).enum.filterMap fun ip =>
      if ip.2.2 = '+' then some (.pos ip.2.1 ip.1)
      else if ip.2.2 = '*' then some (.notPos ip.2.1 ip.1)
      else none)
  ++ ((distinctLetters guess).filterMap fun g =>
      if confirmed guess pattern g = 0 then some (.absent g)
      else if confirmed guess pattern g < guess.count g then
        some (.multExact g (confirmed guess pattern g))
      else if 1 < guess.count g then some (.multAtLeast g (guess.count g))
      else none)

/-- `get_constraints_from_target` (wordle.py lines 145–180).  Positional loop:
a positional match yields `pos`; otherwise a letter occurring anywhere in the
target (`guess[i] in target_frequencies`) yields `notPos`.  Non-positional
loop over the distinct guess letters exactly as in the Python `elif` chain. -/
def get_constraints_from_target (guess target : List Char) : List Constraint :=
  ((guess.zip target).enum.filterMap fun ip =>
      if ip.2.1 = ip.2.2 then some (.pos ip.2.1 ip.1)
      else if 0 < target.count ip.2.1 then some (.notPos ip.2.1 ip.1)
      else none)
  ++ ((distinctLetters guess).filterMap fun g =>
      if target.count g = 0 then some (.absent g)
      else if target.count g < guess.count g then some (.multExact g (target.count g))
      else if 1 < guess.count g then some (.multAtLeast g (guess.count g))
      else none)

/-- Second pass of `get_pattern_from_target` (wordle.py lines 196–200), kept
paired with the guess letters: a position still marked `'-'` whose letter has
remaining budget is changed to `'*'` and the budget decremented. -/
def pass2 (freq : Char → Int) : List (Char × Char) → List (Char × Char)
  | [] => []
  | p :: rest =>
    if p.2 = '-' ∧ 0 < freq p.1 then
      (p.1, '*') :: pass2 (fun c => if c = p.1 then freq p.1 - 1 else freq c) rest
    else p :: pass2 freq rest

/-- Number of positional matches of letter `g` (the total decrement applied to
`frequencies[g]` by the first pass of `get_pattern_from_target`). -/
def hitCount (guess target : List Char) (g : Char) : Nat :=
  List.countP (fun p => decide (p.1 = g ∧ p.1 = p.2)) (guess.zip target)

/-- First pass of `get_pattern_from_target` (lines 190–194), per position:
a positional match is marked `'+'`, everything else keeps the initial `'-'`
of `list("-----")`. -/
def mark1 : Char × Char → Char × Char :=
  fun p => (p.1, if p.1 = p.2 then '+' else '-')

/-- The per-letter budget left after pass 1: `frequencies` is initialised to
`min(target.count(g), guess.count(g))` (line 188) and decremented once per
positional match of `g` (line 194). -/
def patFreq (guess target : List Char) : Char → Int := fun g =>
  min ((target.count g : Int)) ((guess.count g : Int)) - (hitCount guess target g : Int)

/-- `get_pattern_from_target` (wordle.py lines 182–202): pass 1 (`mark1`,
budget `patFreq`), then pass 2 (`pass2`) turns `'-'` into `'*'` while budget
remains.  The pattern is the per-position marks. -/
def get_pattern_from_target (guess target : List Char) : List Char :=
  (pass2 (patFreq guess target) ((guess.zip target).map mark1)).map Prod.snd

example :
    get_pattern_from_target ['C','R','A','N','E'] ['T','R','A','C','E'] =
      ['*','+','+','-','+'] := by decide

example :
    get_pattern_from_target ['A','L','L','E','E'] ['L','E','V','E','L'] =
      ['-','*','*','+','*'] := by decide

example : get_pattern_from_target ['A','A','B','B','B'] ['C','C','C','C','A'] =
    ['*','-','-','-','-'] := by decide

example :
    get_constraints_from_target ['A','A','B','B','B'] ['C','C','C','C','A'] ≠
      get_constraints_from_pattern ['A','A','B','B','B']
        (get_pattern_from_target ['A','A','B','B','B'] ['C','C','C','C','A']) := by
  decide

/-! ## Dictionary index (`parse_dictionary`, wordle.py lines 29–90) -/

/-- Membership of a word in the constraint set `constraint_tree[c.letter][key]`
as populated by the build loops of `parse_dictionary` (for a letter of the
alphabet and a key present in `constraint_set_keys`):
* index sets (line 87–89): every word is added at `tree[word[i]][i]`,
  so `w ∈ tree[l][i] ↔ w.get? i = some l`;
* `NOT-i` sets (line 73–76): populated for letters occurring in the word,
  at indices where the word's letter differs;
* `MULT-n` sets (line 79–80): words whose count of the letter is exactly `n`
  (populated only for occurring letters, so carries `n ≥ 1` implicitly);
* `MULT-n+` sets (line 81–82): words whose count of the letter is at least `n`;
* `NONE` sets (line 83–85): words not containing the letter. -/
def inConstraintSet (w : Word) : Constraint → Bool
  | .pos l i => w.get? i == some l
  | .notPos l i => w.contains l && !(w.get? i == some l)
  | .multExact l n => w.count l == n
  | .multAtLeast l n => decide (n ≤ w.count l)
  | .absent l => !(w.contains l)

/-- Whether a constraint's key occurs in `constraint_set_keys` (wordle.py
lines 58–62): indices `0..4`, `NOT-0..NOT-4`, `MULT-1..MULT-5`,
`MULT-2+..MULT-4+`, `NONE`.  A lookup with any other key raises `KeyError`. -/
def validKey : Constraint → Bool
  | .pos _ i => decide (i < 5)
  | .notPos _ i => decide (i < 5)
  | .multExact _ n => decide (1 ≤ n ∧ n ≤ 5)
  | .multAtLeast _ n => decide (2 ≤ n ∧ n ≤ 4)
  | .absent _ => true

/-- `constraint_tree[c[0]][c[1]]`: `none` models the `KeyError` raised when
the letter is not an alphabet key or the key is not in `constraint_set_keys`;
otherwise the constraint set characterised by `inConstraintSet`. -/
def treeLookup (alphabet : List Char) (allWords : Finset Word) (c : Constraint) :
    Option (Finset Word) :=
  if c.letter ∈ alphabet ∧ validKey c then
    some (allWords.filter (fun w => inConstraintSet w c))
  else none

/-- Whether processing one dictionary word in the build loops of
`parse_dictionary` completes without an exception:
* for each alphabet letter contained in the word, the `NOT-i` loop reads
  `word[i]` for every `i < 5` (needs length ≥ 5), the `MULT` update needs key
  `"MULT-count"` (count ≤ 5) and keys `"MULT-n+"` for `n = 2..count`
  (so count < 2 or count ≤ 4);
* the index loop needs `word[i]`'s letter to be an alphabet key and `i < 5`. -/
def wordProcessOk (alphabet : List Char) (w : Word) : Bool :=
  (alphabet.all fun l =>
    if w.contains l then
      decide (5 ≤ w.length) && decide (w.count l ≤ 5) &&
        (decide (w.count l < 2) || decide (w.count l ≤ 4))
    else true)
  && (w.enum.all fun is => alphabet.contains is.2 && decide (is.1 < 5))

/-- `parse_dictionary` (wordle.py lines 29–90), taking the stripped upper-cased
lines of the dictionary file as input.  Returns the set `all_words` when every
word is processed without an exception (the constraint tree is then the map
characterised by `treeLookup`); `none` models the uncaught `KeyError` /
`IndexError` that aborts the build. -/
def parse_dictionary (alphabet : List Char) (words : List Word) : Option (Finset Word) :=
  if words.all (wordProcessOk alphabet) then some words.toFinset else none

/-! ## Candidate pool update (`update_valid_words`, wordle.py lines 223–240) -/

/-- The list comprehension `[self.constraint_tree[c[0]][c[1]] for c in
new_constraints]` (line 237): all lookups succeed or the comprehension raises. -/
def lookupAll (alphabet : List Char) (allWords : Finset Word) :
    List Constraint → Option (List (Finset Word))
  | [] => some []
  | c :: cs =>
    match treeLookup alphabet allWords c, lookupAll alphabet allWords cs with
    | some s, some sets => some (s :: sets)
    | _, _ => none

/-- `update_valid_words`: resolve every constraint in the tree (a failed
lookup raises, modelled by `none`), append the current `valid_words`, sort all
sets ascending by size (`possibility_sets.sort(key=len)`; set intersection is
commutative and associative, so the tie order among equal-size sets never
affects the fold's result) and fold with set intersection. -/
def update_valid_words (alphabet : List Char) (allWords valid_words : Finset Word)
    (new_constraints : List Constraint) : Option (Finset Word) :=
  match lookupAll alphabet allWords new_constraints with
  | none => none
  | some sets =>
    match List.insertionSort (fun a b => a.card ≤ b.card) (sets ++ [valid_words]) with
    | [] => some valid_words
    | s :: rest => some (rest.foldl (fun a b => a ∩ b) s)

/-! ## Game session (`play`, wordle.py lines 359–410)

`play` is modelled for the known-target mode (`target is not None`): the guess
chosen each turn (`start` word or `next_guess`, both involving I/O and
randomness) is abstracted as a function from the move number; the loop
`for move in range(0, 6)` is structural recursion on the remaining move
numbers.  The result is the returned move (`-1` for both the empty-pool exit
and the fall-through after six moves) paired with the final `valid_words`;
`none` models an uncaught exception inside `update_valid_words`. -/

def playLoop (guesses : Nat → Word) (target : Word) (alphabet : List Char)
    (allWords : Finset Word) : List Nat → Finset Word → Option (Int × Finset Word)
  | [], pool => some (-1, pool)
  | move :: rest, pool =>
    match update_valid_words alphabet allWords pool
        (get_constraints_from_target (guesses move) target) with
    | none => none
    | some pool2 =>
      if guesses move = target then some ((move : Int), pool2)
      else if pool2 = ∅ then some (-1, pool2)
      else playLoop guesses target alphabet allWords rest pool2

def play (guesses : Nat → Word) (target : Word) (alphabet : List Char)
    (allWords : Finset Word) : Option (Int × Finset Word) :=
  playLoop guesses target alphabet allWords [0, 1, 2, 3, 4, 5] allWords

/-! ## Guess scoring (`next_guess`, wordle.py lines 242–320)

The scoring loop iterates `guess_set` and `valid_words`; Python iterates sets
in an order that is deterministic within a run but unspecified, so the model
takes both as explicit lists.  Scores are Python floats, modelled as `ℚ`;
`min_score` starts at `float('inf')`, modelled as `none : Option ℚ`.
`constraint_tree` lookups in the scoring loop are modelled by their membership
predicate `inConstraintSet` (every atom generated from a pattern between
five-letter dictionary words of letter counts ≤ 4 has a valid tree key). -/

/-- The all-hit pattern `"+++++"`, which line 294 excludes from the histogram. -/
def allHit : List Char := ['+', '+', '+', '+', '+']

/-- One step of histogram building (lines 291–295): increment an existing
pattern entry, otherwise append a new entry unless the pattern is all-hit. -/
def bumpPattern (hist : List (List Char × Nat)) (p : List Char) : List (List Char × Nat) :=
  if hist.any (fun e => e.1 = p) then
    hist.map (fun e => if e.1 = p then (e.1, e.2 + 1) else e)
  else if p = allHit then hist
  else hist ++ [(p, 1)]

/-- `pattern_frequencies` for one candidate guess: fold the pool in order,
entries in first-occurrence order (Python dict insertion order). -/
def pattern_frequencies (guess : Word) (pool : List Word) : List (List Char × Nat) :=
  pool.foldl (fun hist target => bumpPattern hist (get_pattern_from_target guess target)) []

/-- Histogram entries in decreasing frequency order (line 298:
`sorted(pattern_frequencies, key=pattern_frequencies.get, reverse=True)`). -/
def sortedHist (guess : Word) (pool : List Word) : List (List Char × Nat) :=
  List.insertionSort (fun a b => b.2 ≤ a.2) (pattern_frequencies guess pool)

/-- `result_size` (line 300–301): the number of pool words contained in every
constraint set of the pattern's constraints. -/
def result_size (pool : List Word) (cs : List Constraint) : Nat :=
  List.countP (fun w => cs.all (fun c => inConstraintSet w c)) pool

/-- The score contribution of one histogram entry (line 302):
`result_size * (frequency / len(valid_words))`. -/
def patternTerm (guess : Word) (pool : List Word) (pf : List Char × Nat) : ℚ :=
  (result_size pool (get_constraints_from_pattern guess pf.1) : ℚ) *
    ((pf.2 : ℚ) / (pool.length : ℚ))

/-- The early-exit test (line 305): `words_scores[guess] > min_score + 0.1`,
`min_score = ∞` modelled as `none`. -/
def exceeds (acc : ℚ) : Option ℚ → Bool
  | none => false
  | some q => decide (q + 1 / 10 < acc)

/-- The inner pattern loop (lines 298–306): accumulate pattern terms, breaking
once the partial score exceeds `min_score + 0.1`.  With `m = none` (infinite
`min_score`) the break never fires and this is the full sum. -/
def prunedRun (guess : Word) (pool : List Word) (m : Option ℚ) :
    List (List Char × Nat) → ℚ → ℚ
  | [], acc => acc
  | pf :: rest, acc =>
    let acc2 := acc + patternTerm guess pool pf
    if exceeds acc2 m then acc2 else prunedRun guess pool m rest acc2

/-- The recorded score of one guess under pruning. -/
def score_pruned (guess : Word) (pool : List Word) (m : Option ℚ) : ℚ :=
  prunedRun guess pool m (sortedHist guess pool) 0

/-- The fully-computed expected remaining-pool-size score of a guess
(every pattern of the histogram summed, no early exit). -/
def score_full (guess : Word) (pool : List Word) : ℚ :=
  prunedRun guess pool none (sortedHist guess pool) 0

/-- `min_score` update (lines 309–310). -/
def updMin (s : ℚ) : Option ℚ → Option ℚ
  | none => some s
  | some q => if s < q then some s else some q

/-- The outer guess loop (lines 287–310): record each guess's (possibly
pruned) score, threading `min_score`. -/
def scoreLoop (pool : List Word) : List Word → Option ℚ → List (Word × ℚ)
  | [], _ => []
  | g :: rest, m =>
    let s := score_pruned g pool m
    (g, s) :: scoreLoop pool rest (updMin s m)

/-- `sorted(words_scores, key=words_scores.get)[0]` (lines 319–320): the first
entry attaining the minimal recorded score (Python's sort is stable, so ties
keep insertion order); `none` models the `IndexError` on an empty dict. -/
def pickMin : List (Word × ℚ) → Option (Word × ℚ)
  | [] => none
  | x :: rest =>
    match pickMin rest with
    | none => some x
    | some y => if x.2 ≤ y.2 then some x else some y

/-- The scoring search of `next_guess` (lines 284–320) with pruning. -/
def next_guess_search (guess_set pool : List Word) : Option Word :=
  (pickMin (scoreLoop pool guess_set none)).map Prod.fst

/-- The same search with every pattern of every guess fully evaluated
(no early exit): each guess is paired with its full score. -/
def next_guess_exhaustive (guess_set pool : List Word) : Option Word :=
  (pickMin (guess_set.map (fun g => (g, score_full g pool)))).map Prod.fst

/-- `next_guess` (wordle.py lines 242–320).  `cache` is the first-moves file:
`none` when the file does not exist, `some lines` otherwise; `random.choice`
and `set.pop` (which raise on an empty collection, `none` here) are modelled
by `List.head?`.  On the search path the generated first-moves file write
(lines 313–316) has no effect on the returned guess and is omitted. -/
def next_guess (cache : Option (List Word)) (allWords valid_words : List Word)
    (move : Nat) (is_hard_mode : Bool) : Option Word :=
  if move = 0 ∧ cache.isSome then (cache.getD []).head?
  else if move = 5 then valid_words.head?
  else if valid_words.length ≤ 2 then valid_words.head?
  else next_guess_search (if is_hard_mode then valid_words else allWords) valid_words

/-! ## Batch test statistics (`test`, wordle.py lines 322–357) -/

/-- The outcome counts over the first `n` targets of the shuffled word list
(lines 332–338); `playResult` abstracts `self.play` run to completion. -/
def simulateResults (playResult : Word → Int) (targets : List Word) (n : Nat) :
    Int → Nat :=
  fun k => ((targets.take n).map playResult).count k

/-- A reported percentage (lines 348–349): `results[k] * 100.0 / len(all_words)`
— the divisor is the full dictionary size. -/
def reportedPct (results : Int → Nat) (dictSize : Nat) (k : Int) : ℚ :=
  (results k : ℚ) * 100 / (dictSize : ℚ)

/-- The reported win rate (line 356): `100 - unsolved percentage`. -/
def winRate (results : Int → Nat) (dictSize : Nat) : ℚ :=
  100 - reportedPct results dictSize (-1)

/-! ## Concrete inputs used by witnesses and counterexamples -/

/-- `string.ascii_uppercase`, the default alphabet (wordle.py line 417). -/
def AZ : List Char := "ABCDEFGHIJKLMNOPQRSTUVWXYZ".toList

def wABCDE : Word := "ABCDE".toList
def wABCDF : Word := "ABCDF".toList
def wFGHIJ : Word := "FGHIJ".toList
def wAAAAB : Word := "AAAAB".toList
def wAAAAC : Word := "AAAAC".toList

/-! ## C2: the pool monotonically shrinks under `update_valid_words` -/

theorem foldl_inter_subset_init :
    ∀ (rest : List (Finset Word)) (s : Finset Word),
      rest.foldl (fun a b => a ∩ b) s ⊆ s
  | [], _ => Finset.Subset.refl _
  | b :: rest, s => by
    simp only [List.foldl_cons]
    exact (foldl_inter_subset_init rest (s ∩ b)).trans Finset.inter_subset_left

theorem foldl_inter_subset_of_mem :
    ∀ (rest : List (Finset Word)) (s t : Finset Word), t ∈ rest →
      rest.foldl (fun a b => a ∩ b) s ⊆ t
  | c :: rest, s, t, h => by
    simp only [List.foldl_cons]
    rcases List.mem_cons.1 h with rfl | h
    · exact (foldl_inter_subset_init rest (s ∩ t)).trans Finset.inter_subset_right
    · exact foldl_inter_subset_of_mem rest (s ∩ c) t h

/-- C2 (confirmed): for every candidate pool, every atom list and every
successful `update_valid_words` call, the resulting pool is a subset of the
previous pool — intersection can only shrink the pool. -/
theorem update_valid_words_subset (alphabet : List Char)
    (allWords valid_words : Finset Word) (new_constraints : List Constraint)
    (pool' : Finset Word)
    (h : update_valid_words alphabet allWords valid_words new_constraints = some pool') :
    pool' ⊆ valid_words := by
  cases hm : lookupAll alphabet allWords new_constraints with
  | none =>
    have key : update_valid_words alphabet allWords valid_words new_constraints = none := by
      simp [update_valid_words, hm]
    rw [key] at h; exact absurd h (by simp)
  | some sets =>
    have hmem : valid_words ∈
        List.insertionSort (fun a b => a.card ≤ b.card) (sets ++ [valid_words]) :=
      ((List.perm_insertionSort _ _).mem_iff).2 (by simp)
    cases hs : List.insertionSort (fun a b => a.card ≤ b.card) (sets ++ [valid_words]) with
    | nil => rw [hs] at hmem; exact absurd hmem (List.not_mem_nil _)
    | cons s rest =>
      have key : update_valid_words alphabet allWords valid_words new_constraints =
          some (rest.foldl (fun a b => a ∩ b) s) := by
        simp [update_valid_words, hm, hs]
      rw [key] at h
      simp only [Option.some.injEq] at h
      rw [hs] at hmem
      rcases List.mem_cons.1 hmem with rfl | hmem
      · exact h ▸ foldl_inter_subset_init rest valid_words
      · exact h ▸ foldl_inter_subset_of_mem rest s valid_words hmem

theorem update_valid_words_subset_witness :
    update_valid_words AZ {wABCDE, wABCDF} {wABCDE, wABCDF} [.pos 'E' 4] =
        some {wABCDE} ∧
      ({wABCDE} : Finset Word) ⊆ {wABCDE, wABCDF} :=
  ⟨by decide, update_valid_words_subset AZ {wABCDE, wABCDF} {wABCDE, wABCDF}
    [.pos 'E' 4] {wABCDE} (by decide)⟩

/-! ## C4: `Contradiction` versus `Unsolved` as seen by the caller of `play`

`play` returns `-1` both when the pool empties (line 403) and when six turns
pass without solving (line 410); the two outcomes differ only in logged text,
so they are NOT distinguishable in the returned result. -/

/-- C4 counterexample: a run that ends in contradiction (pool emptied on the
first move) and a run that exhausts all six turns unsolved return the same
value `-1` to the caller — the claimed distinguishability fails. -/
theorem play_contradiction_unsolved_same_result :
    (play (fun _ => wABCDE) wFGHIJ AZ {wABCDE}).map Prod.fst = some (-1) ∧
      (play (fun _ => wAAAAB) wAAAAC AZ {wAAAAB, wAAAAC}).map Prod.fst = some (-1) := by
  constructor
  · decide
  · decide

/-- C4 (amended): both terminal outcomes are surfaced to the caller as the
same sentinel `-1` — the empty-pool (contradiction) exit returns `-1`
immediately, and exhausting the move list without solving also returns `-1`;
they are distinct from every `Solved` outcome (which returns the move number)
but not from each other. -/
theorem play_sentinel_minus_one :
    (∀ (guesses : Nat → Word) (target : Word) (alphabet : List Char)
        (allWords pool : Finset Word) (move : Nat) (rest : List Nat),
      guesses move ≠ target →
      update_valid_words alphabet allWords pool
          (get_constraints_from_target (guesses move) target) = some ∅ →
      playLoop guesses target alphabet allWords (move :: rest) pool = some (-1, ∅)) ∧
    (∀ (guesses : Nat → Word) (target : Word) (alphabet : List Char)
        (allWords pool : Finset Word),
      playLoop guesses target alphabet allWords [] pool = some (-1, pool)) := by
  refine ⟨fun guesses target alphabet allWords pool move rest hne hupd => ?_,
    fun _ _ _ _ _ => rfl⟩
  simp [playLoop, hupd, hne]

theorem play_sentinel_minus_one_witness :
    playLoop (fun _ => wABCDE) wFGHIJ AZ {wABCDE} [0, 1, 2, 3, 4, 5] {wABCDE} =
      some (-1, ∅) :=
  play_sentinel_minus_one.1 (fun _ => wABCDE) wFGHIJ AZ {wABCDE} {wABCDE} 0
    [1, 2, 3, 4, 5] (by decide) (by decide)

/-! ## C8: the winning turn does NOT leave the pool unchanged

In `play` (lines 383–398) `update_valid_words` is called BEFORE the
`is_solved` check, so even on the turn whose guess equals the secret the
candidate pool is intersected with the guess's constraints. -/

/-- C8 counterexample: guessing the secret on the first move ends in
`Solved(0)`, but the final pool is `{ABCDE}`, not the pre-turn pool
`{ABCDE, ABCDF}` — the winning turn did change the pool. -/
theorem play_winning_turn_changes_pool :
    play (fun _ => wABCDE) wABCDE AZ {wABCDE, wABCDF} =
        some (0, ({wABCDE} : Finset Word)) ∧
      ({wABCDE} : Finset Word) ≠ {wABCDE, wABCDF} := by
  constructor
  · decide
  · decide

/-- C8 (amended): on a turn whose guess equals the secret the session does
transition to `Solved(turn)`, but only after calling the candidate-pool
intersection: the pool returned alongside the solved turn is the intersected
pool produced by `update_valid_words`, not the pre-turn pool. -/
theorem play_solved_after_intersection (guesses : Nat → Word) (target : Word)
    (alphabet : List Char) (allWords pool pool2 : Finset Word) (move : Nat)
    (rest : List Nat) (hwin : guesses move = target)
    (hupd : update_valid_words alphabet allWords pool
      (get_constraints_from_target (guesses move) target) = some pool2) :
    playLoop guesses target alphabet allWords (move :: rest) pool =
      some ((move : Int), pool2) := by
  rw [hwin] at hupd
  simp [playLoop, hupd, hwin]

theorem play_solved_after_intersection_witness :
    playLoop (fun _ => wABCDE) wABCDE AZ {wABCDE, wABCDF} [0, 1, 2, 3, 4, 5]
        {wABCDE, wABCDF} = some (0, ({wABCDE} : Finset Word)) :=
  play_solved_after_intersection (fun _ => wABCDE) wABCDE AZ {wABCDE, wABCDF}
    {wABCDE, wABCDF} {wABCDE} 0 [1, 2, 3, 4, 5] rfl (by decide)

/-! ## C9: every session reaches a terminal outcome within six turns -/

/-- A word a successfully parsed dictionary can contain (cf. `wordProcessOk`):
five letters, all from the alphabet, none repeated five times.  Guesses drawn
from such a dictionary generate only constraints whose tree keys exist. -/
def goodWord (alphabet : List Char) (w : Word) : Prop :=
  w.length = 5 ∧ ∀ c ∈ w, c ∈ alphabet ∧ w.count c ≤ 4

instance (alphabet : List Char) (w : Word) : Decidable (goodWord alphabet w) := by
  unfold goodWord; infer_instance

/-- Every constraint `get_constraints_from_target` derives from a good guess
has an alphabet letter and a key present in `constraint_set_keys`. -/
theorem constraints_from_target_valid (alphabet : List Char) (guess target : Word)
    (hg : goodWord alphabet guess) :
    ∀ c ∈ get_constraints_from_target guess target,
      c.letter ∈ alphabet ∧ validKey c = true := by
  obtain ⟨hlen, hgood⟩ := hg
  intro c hc
  rcases List.mem_append.1 hc with hc | hc
  · rcases List.mem_filterMap.1 hc with ⟨⟨i, g, t⟩, hip, hf⟩
    have hmemz : (g, t) ∈ guess.zip target :=
      List.snd_mem_of_mem_enum (x := (i, g, t)) hip
    have hgmem : g ∈ guess := (List.of_mem_zip hmemz).1
    have hi5 : i < 5 := by
      have h1 := @List.mem_enumFrom (Char × Char) (g, t) i 0 (guess.zip target)
        (by simpa [List.enum] using hip)
      have h2 : i < (guess.zip target).length := by omega
      have h3 : (guess.zip target).length ≤ guess.length := by
        rw [List.length_zip]; exact Nat.min_le_left _ _
      omega
    split_ifs at hf with h1 h2 <;> simp only [Option.some.injEq] at hf <;> subst hf
    · exact ⟨(hgood g hgmem).1, by simp [validKey, Constraint.letter, hi5]⟩
    · exact ⟨(hgood g hgmem).1, by simp [validKey, Constraint.letter, hi5]⟩
  · rcases List.mem_filterMap.1 hc with ⟨g, hgd, hf⟩
    have hgmem : g ∈ guess := mem_of_mem_distinctLetters hgd
    have hcnt : guess.count g ≤ 4 := (hgood g hgmem).2
    split_ifs at hf with h1 h2 h3 <;> simp only [Option.some.injEq] at hf
    · subst hf; exact ⟨(hgood g hgmem).1, by simp [validKey, Constraint.letter]⟩
    · subst hf
      refine ⟨(hgood g hgmem).1, ?_⟩
      simp only [validKey, Constraint.letter, decide_eq_true_eq]
      omega
    · subst hf
      refine ⟨(hgood g hgmem).1, ?_⟩
      simp only [validKey, Constraint.letter, decide_eq_true_eq]
      omega

theorem lookupAll_isSome (alphabet : List Char) (allWords : Finset Word) :
    ∀ cs : List Constraint, (∀ c ∈ cs, c.letter ∈ alphabet ∧ validKey c = true) →
      ∃ sets, lookupAll alphabet allWords cs = some sets
  | [], _ => ⟨[], rfl⟩
  | c :: cs, h => by
    obtain ⟨sets, hsets⟩ :=
      lookupAll_isSome alphabet allWords cs (fun d hd => h d (List.mem_cons_of_mem _ hd))
    have hc := h c (List.mem_cons_self _ _)
    refine ⟨allWords.filter (fun w => inConstraintSet w c) :: sets, ?_⟩
    simp only [lookupAll, treeLookup, hsets]
    rw [if_pos]
    exact ⟨hc.1, hc.2⟩

theorem update_valid_words_isSome (alphabet : List Char)
    (allWords valid_words : Finset Word) (cs : List Constraint)
    (h : ∀ c ∈ cs, c.letter ∈ alphabet ∧ validKey c = true) :
    ∃ pool', update_valid_words alphabet allWords valid_words cs = some pool' := by
  obtain ⟨sets, hsets⟩ := lookupAll_isSome alphabet allWords cs h
  cases hs : List.insertionSort (fun a b => a.card ≤ b.card) (sets ++ [valid_words]) with
  | nil => exact ⟨valid_words, by simp [update_valid_words, hsets, hs]⟩
  | cons s rest =>
    exact ⟨rest.foldl (fun a b => a ∩ b) s, by simp [update_valid_words, hsets, hs]⟩

theorem playLoop_reaches_terminal (guesses : Nat → Word) (target : Word)
    (alphabet : List Char) (allWords : Finset Word)
    (hgood : ∀ m, goodWord alphabet (guesses m)) :
    ∀ (moves : List Nat), (∀ m ∈ moves, m < 6) → ∀ pool : Finset Word,
      ∃ r pool', playLoop guesses target alphabet allWords moves pool = some (r, pool') ∧
        (r = -1 ∨ (0 ≤ r ∧ r < 6))
  | [], _, pool => ⟨-1, pool, rfl, Or.inl rfl⟩
  | move :: rest, hm, pool => by
    obtain ⟨pool2, hupd⟩ := update_valid_words_isSome alphabet allWords pool
      (get_constraints_from_target (guesses move) target)
      (constraints_from_target_valid alphabet (guesses move) target (hgood move))
    by_cases hwin : guesses move = target
    · refine ⟨(move : Int), pool2, ?_, Or.inr ⟨Int.ofNat_nonneg _, ?_⟩⟩
      · rw [hwin] at hupd
        simp [playLoop, hupd, hwin]
      · exact_mod_cast hm move (List.mem_cons_self _ _)
    · by_cases hemp : pool2 = ∅
      · exact ⟨-1, pool2, by simp [playLoop, hupd, hwin, hemp], Or.inl rfl⟩
      · obtain ⟨r, pool', hrec, hr⟩ := playLoop_reaches_terminal guesses target alphabet
          allWords hgood rest (fun m hm' => hm m (List.mem_cons_of_mem _ hm')) pool2
        exact ⟨r, pool', by simp [playLoop, hupd, hwin, hemp, hrec], hr⟩

/-- C9 (confirmed): a full game session always terminates with a result —
`Solved` at a turn in `0..5` or the `-1` sentinel (contradiction/unsolved) —
after at most the six turns of `range(0, 6)`; the model's move list `[0..5]`
is exhausted and no further transition happens after a terminal return.
The guesses are assumed drawn from a successfully parsed dictionary
(`goodWord`), which rules out the `KeyError` escape. -/
theorem play_reaches_terminal (guesses : Nat → Word) (target : Word)
    (alphabet : List Char) (allWords : Finset Word)
    (hgood : ∀ m, goodWord alphabet (guesses m)) :
    ∃ r pool', play guesses target alphabet allWords = some (r, pool') ∧
      (r = -1 ∨ (0 ≤ r ∧ r < 6)) :=
  playLoop_reaches_terminal guesses target alphabet allWords hgood
    [0, 1, 2, 3, 4, 5] (by decide) allWords

theorem play_reaches_terminal_witness :
    (play (fun _ => wABCDE) wABCDE AZ {wABCDE}).isSome = true := by
  obtain ⟨r, pool', heq, -⟩ :=
    play_reaches_terminal (fun _ => wABCDE) wABCDE AZ {wABCDE}
      (fun _ => (by decide : goodWord AZ wABCDE))
  rw [heq]; rfl

/-! ## C6: `parse_dictionary` validation

The build loops raise (`IndexError` / `KeyError`) on every NONEMPTY word whose
length differs from 5 or that carries an out-of-alphabet symbol — but an empty
word (a blank dictionary line) sails through every loop untouched, so the
claimed "never constructed" guarantee fails. -/

/-- C6 counterexample: a dictionary consisting of one empty word (length 0,
hence length ≠ 5) is accepted and the index IS constructed. -/
theorem parse_dictionary_accepts_empty_word :
    parse_dictionary AZ [([] : Word)] = some {([] : Word)} ∧
      ([] : Word).length ≠ 5 := by
  constructor
  · decide
  · decide

/-- C6 (amended): `parse_dictionary` fails (with an uncaught exception) for
every dictionary containing a NONEMPTY word of length ≠ 5 or with a symbol
outside the alphabet; the empty word, however, is accepted silently. -/
theorem parse_dictionary_rejects_bad_nonempty (alphabet : List Char)
    (words : List Word) (w : Word) (hmem : w ∈ words) (hne : w ≠ [])
    (hbad : w.length ≠ 5 ∨ ∃ c ∈ w, c ∉ alphabet) :
    parse_dictionary alphabet words = none := by
  have hw : ¬ (wordProcessOk alphabet w = true) := by
    intro hOk
    simp only [wordProcessOk, Bool.and_eq_true, List.all_eq_true] at hOk
    obtain ⟨hA, hB⟩ := hOk
    by_cases hall : ∀ c ∈ w, c ∈ alphabet
    · have hlen : w.length ≠ 5 := by
        rcases hbad with h | ⟨c, hc, hcn⟩
        · exact h
        · exact absurd (hall c hc) hcn
      obtain ⟨s0, hs0⟩ := List.exists_mem_of_ne_nil w hne
      rcases Nat.lt_or_ge w.length 5 with hlt | hge
      · have h1 := hA s0 (hall s0 hs0)
        rw [if_pos (by simpa using hs0)] at h1
        simp only [Bool.and_eq_true, decide_eq_true_eq] at h1
        omega
      · have hgt : 5 < w.length := by omega
        have h5 : ((5 : Nat), w[5]) ∈ w.enum :=
          List.mem_enum_iff_getElem?.2 (List.getElem?_eq_getElem hgt)
        have h1 := hB _ h5
        simp only [Bool.and_eq_true, decide_eq_true_eq] at h1
        omega
    · push_neg at hall
      obtain ⟨c, hc, hcn⟩ := hall
      obtain ⟨i, hi, hic⟩ := List.getElem_of_mem hc
      have hmemE : ((i : Nat), c) ∈ w.enum :=
        List.mem_enum_iff_getElem?.2 (by rw [List.getElem?_eq_getElem hi, hic])
      have h1 := hB _ hmemE
      simp only [Bool.and_eq_true, decide_eq_true_eq] at h1
      exact hcn (by simpa using h1.1)
  have hfalse : words.all (wordProcessOk alphabet) ≠ true := by
    intro hall
    exact hw (List.all_eq_true.1 hall w hmem)
  simp [parse_dictionary, hfalse]

theorem parse_dictionary_rejects_bad_nonempty_witness :
    parse_dictionary AZ [['A', 'B']] = none :=
  parse_dictionary_rejects_bad_nonempty AZ [['A', 'B']] ['A', 'B'] (by decide)
    (by decide) (Or.inl (by decide))

/-! ## C7: `next_guess` on a non-empty pool

`next_guess` checks only `exists(self.first_moves_file)`: a first-moves file
that exists but is EMPTY reaches `random.choice([])`, which raises
`IndexError` even though the pool is non-empty — the claimed fallback to the
full search happens only when the file is absent. -/

theorem pickMin_isSome (x : Word × ℚ) (rest : List (Word × ℚ)) :
    ∃ y, pickMin (x :: rest) = some y := by
  cases h : pickMin rest with
  | none => exact ⟨x, by simp [pickMin, h]⟩
  | some y =>
    by_cases hle : x.2 ≤ y.2
    · exact ⟨x, by simp [pickMin, h, hle]⟩
    · exact ⟨y, by simp [pickMin, h, hle]⟩

/-- C7 counterexample: on move 0 with a non-empty pool but an existing, empty
first-moves cache, `next_guess` fails (`random.choice` on an empty list)
instead of falling back to the scoring search. -/
theorem next_guess_empty_cache_raises :
    next_guess (some []) [wABCDE] [wABCDE] 0 false = none ∧ [wABCDE] ≠ [] := by
  constructor
  · rfl
  · decide

/-- C7 (amended): for every move, whenever the candidate pool is non-empty
(and in open mode the dictionary is non-empty), `next_guess` returns a word
without raising, PROVIDED that on move 0 the first-guess cache is either
absent — in which case it falls back to the full scoring search — or
non-empty; an existing-but-empty cache file instead raises. -/
theorem next_guess_returns_word (cache : Option (List Word))
    (allWords valid_words : List Word) (move : Nat) (is_hard_mode : Bool)
    (hpool : valid_words ≠ [])
    (hcache : move = 0 → cache = none ∨ ∃ l, cache = some l ∧ l ≠ [])
    (hall : is_hard_mode = true ∨ allWords ≠ []) :
    ∃ w, next_guess cache allWords valid_words move is_hard_mode = some w := by
  unfold next_guess
  by_cases h0 : move = 0 ∧ cache.isSome
  · rw [if_pos h0]
    rcases hcache h0.1 with rfl | ⟨l, rfl, hl⟩
    · simp at h0
    · cases l with
      | nil => exact absurd rfl hl
      | cons a l => exact ⟨a, rfl⟩
  · rw [if_neg h0]
    by_cases h5 : move = 5
    · rw [if_pos h5]
      cases valid_words with
      | nil => exact absurd rfl hpool
      | cons a l => exact ⟨a, rfl⟩
    · rw [if_neg h5]
      by_cases h2 : valid_words.length ≤ 2
      · rw [if_pos h2]
        cases valid_words with
        | nil => exact absurd rfl hpool
        | cons a l => exact ⟨a, rfl⟩
      · rw [if_neg h2]
        have hgs : (if is_hard_mode then valid_words else allWords) ≠ [] := by
          cases is_hard_mode with
          | true => simpa using hpool
          | false => simpa using hall.resolve_left (by simp)
        cases hgsl : (if is_hard_mode then valid_words else allWords) with
        | nil => exact absurd hgsl hgs
        | cons g gs =>
          unfold next_guess_search
          obtain ⟨y, hy⟩ := pickMin_isSome (g, score_pruned g valid_words none)
            (scoreLoop valid_words gs (updMin (score_pruned g valid_words none) none))
          exact ⟨y.1, by rw [scoreLoop, hy]; rfl⟩

theorem next_guess_returns_word_witness :
    (next_guess none [wABCDE, wABCDF] [wABCDE, wABCDF, wFGHIJ] 1 false).isSome
      = true := by
  obtain ⟨w, hw⟩ := next_guess_returns_word none [wABCDE, wABCDF]
    [wABCDE, wABCDF, wFGHIJ] 1 false (by decide) (fun h => Or.inl rfl)
    (Or.inr (by decide))
  rw [hw]; rfl

/-! ## C10: batch test-mode percentages

`test` (lines 347–349, 356) divides every count by `len(self.all_words)`, the
full dictionary size — NOT by the number of games actually simulated, which is
`min(max_games, len(self.all_words))` (line 335).  When fewer games than
dictionary words are run, the percentages do not sum to 100. -/

/-- C10 counterexample: two dictionary words, one simulated game solved on the
first move.  The reported turn-1 percentage is `1 * 100 / 2 = 50`, not
`1 * 100 / 1 = 100`, and the seven reported percentages sum to `50`, not
`100`. -/
theorem test_pct_divides_by_dict_size :
    reportedPct (simulateResults (fun _ => 0) [wABCDE, wABCDF] 1) 2 0 ≠
        (simulateResults (fun _ => 0) [wABCDE, wABCDF] 1 0 : ℚ) * 100 / 1 ∧
      reportedPct (simulateResults (fun _ => 0) [wABCDE, wABCDF] 1) 2 0 +
        reportedPct (simulateResults (fun _ => 0) [wABCDE, wABCDF] 1) 2 1 +
        reportedPct (simulateResults (fun _ => 0) [wABCDE, wABCDF] 1) 2 2 +
        reportedPct (simulateResults (fun _ => 0) [wABCDE, wABCDF] 1) 2 3 +
        reportedPct (simulateResults (fun _ => 0) [wABCDE, wABCDF] 1) 2 4 +
        reportedPct (simulateResults (fun _ => 0) [wABCDE, wABCDF] 1) 2 5 +
        reportedPct (simulateResults (fun _ => 0) [wABCDE, wABCDF] 1) 2 (-1) ≠
        100 := by
  have e0 : simulateResults (fun _ => 0) [wABCDE, wABCDF] 1 0 = 1 := rfl
  have e1 : simulateResults (fun _ => 0) [wABCDE, wABCDF] 1 1 = 0 := rfl
  have e2 : simulateResults (fun _ => 0) [wABCDE, wABCDF] 1 2 = 0 := rfl
  have e3 : simulateResults (fun _ => 0) [wABCDE, wABCDF] 1 3 = 0 := rfl
  have e4 : simulateResults (fun _ => 0) [wABCDE, wABCDF] 1 4 = 0 := rfl
  have e5 : simulateResults (fun _ => 0) [wABCDE, wABCDF] 1 5 = 0 := rfl
  have em : simulateResults (fun _ => 0) [wABCDE, wABCDF] 1 (-1) = 0 := rfl
  constructor
  · simp only [reportedPct, e0]
    norm_num
  · simp only [reportedPct, e0, e1, e2, e3, e4, e5, em]
    norm_num

theorem count_outcomes_partition :
    ∀ L : List Int, (∀ x ∈ L, -1 ≤ x ∧ x < 6) →
      L.count 0 + L.count 1 + L.count 2 + L.count 3 + L.count 4 + L.count 5 +
        L.count (-1) = L.length
  | [], _ => rfl
  | x :: L, h => by
    have ih := count_outcomes_partition L (fun y hy => h y (List.mem_cons_of_mem _ hy))
    have hx := h x (List.mem_cons_self _ _)
    simp only [List.count_cons, List.length_cons]
    have hcases : x = -1 ∨ x = 0 ∨ x = 1 ∨ x = 2 ∨ x = 3 ∨ x = 4 ∨ x = 5 := by omega
    rcases hcases with rfl | rfl | rfl | rfl | rfl | rfl | rfl <;> simp <;> omega

/-- C10 (amended): each reported percentage equals the outcome count times 100
divided by the FULL DICTIONARY SIZE (not the number of games simulated); the
six solve-rate percentages plus the unsolved percentage therefore sum to
`n·100/dictSize` — which is 100% only when every dictionary word is played —
and the overall win rate does equal 100 minus the unsolved percentage. -/
theorem test_pct_sum (playFn : Word → Int) (targets : List Word) (n dictSize : Nat)
    (hn : n ≤ targets.length)
    (hrange : ∀ w ∈ targets, -1 ≤ playFn w ∧ playFn w < 6) :
    reportedPct (simulateResults playFn targets n) dictSize 0 +
      reportedPct (simulateResults playFn targets n) dictSize 1 +
      reportedPct (simulateResults playFn targets n) dictSize 2 +
      reportedPct (simulateResults playFn targets n) dictSize 3 +
      reportedPct (simulateResults playFn targets n) dictSize 4 +
      reportedPct (simulateResults playFn targets n) dictSize 5 +
      reportedPct (simulateResults playFn targets n) dictSize (-1) =
        (n : ℚ) * 100 / (dictSize : ℚ) ∧
    winRate (simulateResults playFn targets n) dictSize =
      100 - reportedPct (simulateResults playFn targets n) dictSize (-1) := by
  refine ⟨?_, rfl⟩
  set L : List Int := (targets.take n).map playFn with hL
  have hrangeL : ∀ x ∈ L, -1 ≤ x ∧ x < 6 := by
    intro x hx
    rw [hL] at hx
    rcases List.mem_map.1 hx with ⟨w, hw, rfl⟩
    exact hrange w (List.mem_of_mem_take hw)
  have hlen : L.length = n := by
    rw [hL, List.length_map, List.length_take]
    omega
  have key : L.count 0 + L.count 1 + L.count 2 + L.count 3 + L.count 4 +
      L.count 5 + L.count (-1) = n := by
    rw [count_outcomes_partition L hrangeL, hlen]
  have keyQ : ((L.count 0 : ℚ) + L.count 1 + L.count 2 + L.count 3 + L.count 4 +
      L.count 5 + L.count (-1)) = (n : ℚ) := by exact_mod_cast key
  calc reportedPct (simulateResults playFn targets n) dictSize 0 +
        reportedPct (simulateResults playFn targets n) dictSize 1 +
        reportedPct (simulateResults playFn targets n) dictSize 2 +
        reportedPct (simulateResults playFn targets n) dictSize 3 +
        reportedPct (simulateResults playFn targets n) dictSize 4 +
        reportedPct (simulateResults playFn targets n) dictSize 5 +
        reportedPct (simulateResults playFn targets n) dictSize (-1)
      = ((L.count 0 : ℚ) + L.count 1 + L.count 2 + L.count 3 + L.count 4 +
          L.count 5 + L.count (-1)) * 100 / (dictSize : ℚ) := by
        simp only [reportedPct, simulateResults, hL]
        ring
    _ = (n : ℚ) * 100 / (dictSize : ℚ) := by rw [keyQ]

theorem test_pct_sum_witness :
    reportedPct (simulateResults (fun _ => 0) [wABCDE, wABCDF] 2) 2 0 +
      reportedPct (simulateResults (fun _ => 0) [wABCDE, wABCDF] 2) 2 1 +
      reportedPct (simulateResults (fun _ => 0) [wABCDE, wABCDF] 2) 2 2 +
      reportedPct (simulateResults (fun _ => 0) [wABCDE, wABCDF] 2) 2 3 +
      reportedPct (simulateResults (fun _ => 0) [wABCDE, wABCDF] 2) 2 4 +
      reportedPct (simulateResults (fun _ => 0) [wABCDE, wABCDF] 2) 2 5 +
      reportedPct (simulateResults (fun _ => 0) [wABCDE, wABCDF] 2) 2 (-1) =
        (2 : ℚ) * 100 / (2 : ℚ) ∧
    winRate (simulateResults (fun _ => 0) [wABCDE, wABCDF] 2) 2 =
      100 - reportedPct (simulateResults (fun _ => 0) [wABCDE, wABCDF] 2) 2 (-1) :=
  test_pct_sum (fun _ => 0) [wABCDE, wABCDF] 2 2 (by decide)
    (fun w _ => (show (-1 : Int) ≤ 0 ∧ (0 : Int) < 6 by decide))

/-! ## C5: pattern correctness with repeated letters -/

theorem countP_or_split {α : Type} (p q : α → Prop) [DecidablePred p] [DecidablePred q]
    (hdisj : ∀ a, ¬(p a ∧ q a)) : ∀ l : List α,
    List.countP (fun a => decide (p a ∨ q a)) l =
      List.countP (fun a => decide (p a)) l + List.countP (fun a => decide (q a)) l
  | [] => rfl
  | a :: l => by
    simp only [List.countP_cons, countP_or_split p q hdisj l]
    by_cases hp : p a
    · have hq : ¬ q a := fun hq => hdisj a ⟨hp, hq⟩
      simp [hp, hq]
      omega
    · by_cases hq : q a
      · simp [hp, hq]
        omega
      · simp [hp, hq]

theorem pass2_map_fst : ∀ (freq : Char → Int) (l : List (Char × Char)),
    (pass2 freq l).map Prod.fst = l.map Prod.fst
  | _, [] => rfl
  | freq, p :: rest => by
    simp only [pass2]
    split_ifs with h
    · simp only [List.map_cons, pass2_map_fst _ rest]
    · simp only [List.map_cons, pass2_map_fst freq rest]

theorem pass2_length (freq : Char → Int) (l : List (Char × Char)) :
    (pass2 freq l).length = l.length := by
  have := congrArg List.length (pass2_map_fst freq l)
  simpa using this

theorem pass2_countP_plus (g : Char) : ∀ (freq : Char → Int) (l : List (Char × Char)),
    List.countP (fun p => decide (p.1 = g ∧ p.2 = '+')) (pass2 freq l) =
      List.countP (fun p => decide (p.1 = g ∧ p.2 = '+')) l
  | _, [] => rfl
  | freq, p :: rest => by
    simp only [pass2]
    split_ifs with h
    · simp only [List.countP_cons, pass2_countP_plus g _ rest]
      have h1 : (((p.1, '*') : Char × Char).2 = '+') = False := by simp
      have h2 : (p.2 = '+') = False := by rw [h.1]; simp
      simp [h1, h2]
    · simp only [List.countP_cons, pass2_countP_plus g freq rest]

theorem pass2_countP_star (g : Char) : ∀ (freq : Char → Int) (l : List (Char × Char)),
    (∀ p ∈ l, p.2 ≠ '*') →
    List.countP (fun p => decide (p.1 = g ∧ p.2 = '*')) (pass2 freq l) ≤ (freq g).toNat
  | _, [], _ => Nat.zero_le _
  | freq, p :: rest, hstar => by
    have hrest := fun q hq => hstar q (List.mem_cons_of_mem _ hq)
    simp only [pass2]
    split_ifs with h
    · have ih2 : List.countP (fun p => decide (p.1 = g ∧ p.2 = '*'))
          (pass2 (fun c => if c = p.1 then freq p.1 - 1 else freq c) rest) ≤
          (if g = p.1 then freq p.1 - 1 else freq g).toNat :=
        pass2_countP_star g (fun c => if c = p.1 then freq p.1 - 1 else freq c) rest hrest
      by_cases hg : g = p.1
      · subst hg
        rw [if_pos rfl] at ih2
        have hpos : 0 < freq p.1 := h.2
        have hhead : (decide (((p.1, '*') : Char × Char).1 = p.1 ∧
            ((p.1, '*') : Char × Char).2 = '*')) = true := by simp
        rw [List.countP_cons, hhead]
        have h1 : (if (true : Bool) = true then (1 : Nat) else 0) = 1 := rfl
        rw [h1]
        omega
      · rw [if_neg hg] at ih2
        have hne : ¬ p.1 = g := fun hc => hg hc.symm
        have hhead : (decide (((p.1, '*') : Char × Char).1 = g ∧
            ((p.1, '*') : Char × Char).2 = '*')) = false := by
          simp [hne]
        rw [List.countP_cons, hhead]
        simpa using ih2
    · have ih := pass2_countP_star g freq rest hrest
      have hhead : (decide (p.1 = g ∧ p.2 = '*')) = false := by
        simp [hstar p (List.mem_cons_self _ _)]
      rw [List.countP_cons, hhead]
      simpa using ih

theorem pass2_forall₂ : ∀ (freq : Char → Int) (l : List (Char × Char)),
    List.Forall₂ (fun a b => a.1 = b.1 ∧ (a.2 = '+' ↔ b.2 = '+')) l (pass2 freq l)
  | _, [] => List.Forall₂.nil
  | freq, p :: rest => by
    simp only [pass2]
    split_ifs with h
    · refine List.Forall₂.cons ⟨rfl, ?_⟩ (pass2_forall₂ _ rest)
      rw [h.1]
      exact (show (('-' : Char) = '+' ↔ ('*' : Char) = '+') by decide)
    · exact List.Forall₂.cons ⟨rfl, Iff.rfl⟩ (pass2_forall₂ freq rest)

theorem hitCount_le_target (guess target : Word) (hlen : guess.length = target.length)
    (g : Char) : hitCount guess target g ≤ target.count g := by
  unfold hitCount
  calc List.countP (fun p => decide (p.1 = g ∧ p.1 = p.2)) (guess.zip target) ≤
        List.countP (fun p => decide (p.2 = g)) (guess.zip target) := by
        refine List.countP_mono_left (fun p _ hp => ?_)
        simp only [decide_eq_true_eq] at hp ⊢
        rw [← hp.2]; exact hp.1
    _ = target.count g := by
        have h1 : List.countP (fun x => decide (x = g))
            ((guess.zip target).map Prod.snd) =
            List.countP (fun p => decide (p.2 = g)) (guess.zip target) := by
          rw [List.countP_map]; rfl
        rw [← h1, List.map_snd_zip guess target (le_of_eq hlen.symm)]
        unfold List.count
        refine List.countP_congr (fun x _ => ?_)
        simp

theorem hitCount_le_guess (guess target : Word) (hlen : guess.length = target.length)
    (g : Char) : hitCount guess target g ≤ guess.count g := by
  unfold hitCount
  calc List.countP (fun p => decide (p.1 = g ∧ p.1 = p.2)) (guess.zip target) ≤
        List.countP (fun p => decide (p.1 = g)) (guess.zip target) := by
        refine List.countP_mono_left (fun p _ hp => ?_)
        simp only [decide_eq_true_eq] at hp ⊢
        exact hp.1
    _ = guess.count g := by
        have h1 : List.countP (fun x => decide (x = g))
            ((guess.zip target).map Prod.fst) =
            List.countP (fun p => decide (p.1 = g)) (guess.zip target) := by
          rw [List.countP_map]; rfl
        rw [← h1, List.map_fst_zip guess target (le_of_eq hlen)]
        unfold List.count
        refine List.countP_congr (fun x _ => ?_)
        simp

theorem marked_countP_plus (guess target : Word) (g : Char) :
    List.countP (fun p => decide (p.1 = g ∧ p.2 = '+')) ((guess.zip target).map mark1) =
      hitCount guess target g := by
  rw [List.countP_map]
  unfold hitCount
  refine List.countP_congr (fun p _ => ?_)
  simp only [Function.comp_apply, mark1, decide_eq_true_eq]
  by_cases hpe : p.1 = p.2 <;> simp [hpe]

theorem marked_no_star (guess target : Word) :
    ∀ p ∈ (guess.zip target).map mark1, p.2 ≠ '*' := by
  intro p hp
  rcases List.mem_map.1 hp with ⟨q, _, rfl⟩
  simp only [mark1]
  by_cases hpe : q.1 = q.2 <;> simp [hpe]

theorem zip_fst_snd_of_map_fst {l : List (Char × Char)} {w : Word}
    (h : l.map Prod.fst = w) : w.zip (l.map Prod.snd) = l := by
  subst h
  rw [List.zip_map']
  simp

theorem confirmed_le_target_count (guess target : Word)
    (hlen : guess.length = target.length) (g : Char) :
    confirmed guess (get_pattern_from_target guess target) g ≤ target.count g := by
  have hfst_marked : (((guess.zip target).map mark1).map Prod.fst) = guess := by
    rw [List.map_map]
    have h1 : Prod.fst ∘ mark1 = Prod.fst := funext fun p => rfl
    rw [h1, List.map_fst_zip guess target (le_of_eq hlen)]
  have hfst_out :
      (pass2 (patFreq guess target) ((guess.zip target).map mark1)).map Prod.fst =
        guess := by
    rw [pass2_map_fst, hfst_marked]
  have hzipout : guess.zip
      ((pass2 (patFreq guess target) ((guess.zip target).map mark1)).map Prod.snd) =
      pass2 (patFreq guess target) ((guess.zip target).map mark1) :=
    zip_fst_snd_of_map_fst hfst_out
  unfold confirmed get_pattern_from_target
  rw [hzipout]
  have hsplit : List.countP (fun p => decide (p.1 = g ∧ (p.2 = '+' ∨ p.2 = '*')))
      (pass2 (patFreq guess target) ((guess.zip target).map mark1)) =
      List.countP (fun p => decide ((p.1 = g ∧ p.2 = '+') ∨ (p.1 = g ∧ p.2 = '*')))
      (pass2 (patFreq guess target) ((guess.zip target).map mark1)) := by
    refine List.countP_congr (fun x _ => ?_)
    simp only [decide_eq_true_eq]
    constructor
    · rintro ⟨h1, h2 | h2⟩
      · exact Or.inl ⟨h1, h2⟩
      · exact Or.inr ⟨h1, h2⟩
    · rintro (⟨h1, h2⟩ | ⟨h1, h2⟩)
      · exact ⟨h1, Or.inl h2⟩
      · exact ⟨h1, Or.inr h2⟩
  rw [hsplit, countP_or_split _ _ (fun p hp => by
    have h1 := hp.1.2
    have h2 := hp.2.2
    rw [h1] at h2
    cases h2)]
  have hplus : List.countP (fun p => decide (p.1 = g ∧ p.2 = '+'))
      (pass2 (patFreq guess target) ((guess.zip target).map mark1)) =
      hitCount guess target g := by
    rw [pass2_countP_plus, marked_countP_plus]
  have hstarbound : List.countP (fun p => decide (p.1 = g ∧ p.2 = '*'))
      (pass2 (patFreq guess target) ((guess.zip target).map mark1)) ≤
      (patFreq guess target g).toNat :=
    pass2_countP_star g (patFreq guess target) ((guess.zip target).map mark1)
      (marked_no_star guess target)
  have hmin : hitCount guess target g ≤ min (target.count g) (guess.count g) :=
    le_min (hitCount_le_target guess target hlen g)
      (hitCount_le_guess guess target hlen g)
  have hfreqval : (patFreq guess target g).toNat =
      min (target.count g) (guess.count g) - hitCount guess target g := by
    unfold patFreq
    have hcast : (min ((target.count g : Int)) ((guess.count g : Int))) =
        ((min (target.count g) (guess.count g) : Nat) : Int) := by
      simp [Nat.cast_min]
    rw [hcast, Int.toNat_sub]
  rw [hplus]
  calc hitCount guess target g + List.countP (fun p => decide (p.1 = g ∧ p.2 = '*'))
        (pass2 (patFreq guess target) ((guess.zip target).map mark1)) ≤
        hitCount guess target g + (patFreq guess target g).toNat := by omega
    _ = hitCount guess target g +
        (min (target.count g) (guess.count g) - hitCount guess target g) := by
        rw [hfreqval]
    _ = min (target.count g) (guess.count g) := Nat.add_sub_cancel' hmin
    _ ≤ target.count g := Nat.min_le_left _ _

theorem pattern_plus_iff (guess target : Word)
    (hlen : guess.length = target.length) (i : Nat) (hig : i < guess.length) :
    ((get_pattern_from_target guess target)[i]? = some '+' ↔
      guess[i]? = target[i]?) := by
  have hit : i < target.length := hlen ▸ hig
  have hiz : i < (guess.zip target).length := by
    rw [List.length_zip]; omega
  have him : i < ((guess.zip target).map mark1).length := by
    rw [List.length_map]; exact hiz
  have hio : i < (pass2 (patFreq guess target) ((guess.zip target).map mark1)).length := by
    rw [pass2_length]; exact him
  have hF := (List.forall₂_iff_get.1
    (pass2_forall₂ (patFreq guess target) ((guess.zip target).map mark1))).2 i him hio
  simp only [List.get_eq_getElem] at hF
  obtain ⟨-, h2⟩ := hF
  have hm : (((guess.zip target).map mark1))[i] = mark1 ((guess.zip target)[i]) := by
    simp
  have hz : ((guess.zip target))[i] = (guess[i], target[i]) := List.getElem_zip
  rw [hm, hz] at h2
  simp only [mark1] at h2
  have hpat : (get_pattern_from_target guess target)[i]? =
      some ((pass2 (patFreq guess target) ((guess.zip target).map mark1))[i].2) := by
    unfold get_pattern_from_target
    rw [List.getElem?_map, List.getElem?_eq_getElem hio]
    rfl
  rw [hpat, List.getElem?_eq_getElem hig, List.getElem?_eq_getElem hit]
  simp only [Option.some.injEq]
  constructor
  · intro h
    by_contra hne
    rw [if_neg hne] at h2
    have := h2.2 h
    cases this
  · intro h
    exact h2.1 (by rw [if_pos h])

/-- C5 (confirmed): in the pattern computed by `get_pattern_from_target`,
(a) every letter receives at most as many combined `'+'`/`'*'` marks as its
occurrence count in the secret, and (b) a position is marked `'+'` exactly
when guess and secret agree there — positional matches are claimed by pass 1
before pass 2 hands out `'*'`, so excess repeats are left as `'-'` (Miss). -/
theorem get_pattern_marks_capped (guess target : Word)
    (h5 : guess.length = 5) (h5t : target.length = 5) :
    (∀ g : Char,
      confirmed guess (get_pattern_from_target guess target) g ≤ target.count g) ∧
    (∀ i : Nat, i < 5 →
      ((get_pattern_from_target guess target)[i]? = some '+' ↔
        guess[i]? = target[i]?)) := by
  constructor
  · intro g
    exact confirmed_le_target_count guess target (by omega) g
  · intro i hi
    exact pattern_plus_iff guess target (by omega) i (by omega)

/-! ## C1: codec equivalence

`get_constraints_from_target` emits a `notPos` atom at EVERY mismatched
position whose letter occurs in the target, while the pattern route stars only
as many positions as the letter's budget `min(count in guess, count in
target)` allows; when a guess letter present in the target occurs more often
in the guess than in the target, the pattern-derived list is missing the
excess `notPos` atoms and the two lists differ. -/

theorem star_ne_plus : ('*' : Char) ≠ '+' := by decide
theorem dash_ne_plus : ('-' : Char) ≠ '+' := by decide
theorem dash_ne_star : ('-' : Char) ≠ '*' := by decide
theorem plus_ne_dash : ('+' : Char) ≠ '-' := by decide

theorem countP_fst_eq_count (guess target : Word) (g : Char)
    (hlen : guess.length ≤ target.length) :
    List.countP (fun p => decide (p.1 = g)) (guess.zip target) = guess.count g := by
  have h1 : List.countP (fun x => decide (x = g)) ((guess.zip target).map Prod.fst) =
      List.countP (fun p => decide (p.1 = g)) (guess.zip target) := by
    rw [List.countP_map]; rfl
  rw [← h1, List.map_fst_zip guess target hlen]
  unfold List.count
  refine List.countP_congr (fun x _ => ?_)
  simp

theorem countP_and_not {α : Type} (A B : α → Prop) [DecidablePred A] [DecidablePred B]
    (l : List α) :
    List.countP (fun a => decide (A a)) l =
      List.countP (fun a => decide (A a ∧ B a)) l +
        List.countP (fun a => decide (A a ∧ ¬ B a)) l := by
  rw [← countP_or_split (fun a => A a ∧ B a) (fun a => A a ∧ ¬ B a)
    (fun a h => h.2.2 h.1.2) l]
  refine List.countP_congr (fun x _ => ?_)
  simp only [decide_eq_true_eq]
  by_cases hb : B x
  · simp [hb]
  · simp [hb]

theorem zip_map_of_map_fst {l : List (Char × Char)} {w : Word} (f : Char × Char → Char)
    (h : l.map Prod.fst = w) : w.zip (l.map f) = l.map (fun p => (p.1, f p)) := by
  subst h
  rw [List.zip_map']

/-- Characterisation of pass 2 when, for every letter still needed (`T g > 0`,
`T` standing for the target's letter counts), the budget equals the number of
remaining `'-'` positions of that letter, and letters not in the target have
no budget: every `'-'` position of a target letter is starred, everything else
is kept. -/
theorem pass2_eq_map (T : Char → Nat) : ∀ (freq : Char → Int) (l : List (Char × Char)),
    (∀ g, T g = 0 → freq g ≤ 0) →
    (∀ g, 0 < T g →
      freq g = (List.countP (fun p => decide (p.1 = g ∧ p.2 = '-')) l : Int)) →
    pass2 freq l = l.map (fun p => if p.2 = '-' ∧ 0 < T p.1 then (p.1, '*') else p)
  | freq, [], _, _ => rfl
  | freq, p :: rest, Hz, Hc => by
    have hone : (if (true : Bool) = true then (1 : Nat) else 0) = 1 := rfl
    have hzero : (if (false : Bool) = true then (1 : Nat) else 0) = 0 := rfl
    simp only [pass2, List.map_cons]
    by_cases hd : p.2 = '-'
    · by_cases hT : 0 < T p.1
      · have hfl := Hc p.1 hT
        have hhead : (decide (p.1 = p.1 ∧ p.2 = '-')) = true := by simp [hd]
        rw [List.countP_cons, hhead, hone] at hfl
        have hcnt : freq p.1 =
            (List.countP (fun q => decide (q.1 = p.1 ∧ q.2 = '-')) rest : Int) + 1 := by
          rw [hfl]; push_cast; ring
        have hbr : p.2 = '-' ∧ 0 < freq p.1 := by
          refine ⟨hd, ?_⟩
          have hnn : (0 : Int) ≤
              (List.countP (fun q => decide (q.1 = p.1 ∧ q.2 = '-')) rest : Int) :=
            Int.ofNat_nonneg _
          omega
        rw [if_pos hbr, if_pos ⟨hd, hT⟩]
        congr 1
        apply pass2_eq_map T _ rest
        · intro g hg
          by_cases hgp : g = p.1
          · exfalso; rw [hgp] at hg; omega
          · rw [if_neg hgp]; exact Hz g hg
        · intro g hgT
          by_cases hgp : g = p.1
          · subst hgp
            rw [if_pos rfl]
            omega
          · rw [if_neg hgp]
            have hg2 := Hc g hgT
            have hhg : (decide (p.1 = g ∧ p.2 = '-')) = false := by
              have hne : ¬ p.1 = g := fun hc => hgp hc.symm
              simp [hne]
            rw [List.countP_cons, hhg, hzero] at hg2
            simpa using hg2
      · have hf0 : freq p.1 ≤ 0 := Hz p.1 (by omega)
        have hbr : ¬(p.2 = '-' ∧ 0 < freq p.1) := fun hc => absurd hc.2 (by omega)
        rw [if_neg hbr, if_neg (fun hc => hT hc.2)]
        congr 1
        apply pass2_eq_map T freq rest Hz
        intro g hgT
        have hg2 := Hc g hgT
        have hhg : (decide (p.1 = g ∧ p.2 = '-')) = false := by
          simp only [decide_eq_false_iff_not]
          rintro ⟨h1, -⟩
          exact hT (by rw [h1]; omega)
        rw [List.countP_cons, hhg, hzero] at hg2
        simpa using hg2
    · rw [if_neg (fun hc => hd hc.1), if_neg (fun hc => hd hc.1)]
      congr 1
      apply pass2_eq_map T freq rest Hz
      intro g hgT
      have hg2 := Hc g hgT
      have hhg : (decide (p.1 = g ∧ p.2 = '-')) = false := by simp [hd]
      rw [List.countP_cons, hhg, hzero] at hg2
      simpa using hg2

/-- Under the no-excess-repeats hypothesis, the pattern is computed pointwise:
`'+'` at matches, `'*'` at mismatches whose letter occurs in the target,
`'-'` otherwise. -/
theorem pattern_char (guess target : Word) (hlen : guess.length = target.length)
    (H : ∀ g ∈ guess, 0 < target.count g → guess.count g ≤ target.count g) :
    get_pattern_from_target guess target = (guess.zip target).map (fun p =>
      if p.1 = p.2 then '+' else if 0 < target.count p.1 then '*' else '-') := by
  unfold get_pattern_from_target
  have Hz : ∀ g, target.count g = 0 → patFreq guess target g ≤ 0 := by
    intro g hg
    unfold patFreq
    have h1 : ((target.count g : Int)) = 0 := by exact_mod_cast hg
    have h2 : min ((target.count g : Int)) ((guess.count g : Int)) ≤ 0 := by
      rw [h1]; exact min_le_left _ _
    have h3 : (0 : Int) ≤ (hitCount guess target g : Int) := Int.ofNat_nonneg _
    omega
  have Hc : ∀ g, 0 < target.count g →
      patFreq guess target g = (List.countP (fun p => decide (p.1 = g ∧ p.2 = '-'))
        ((guess.zip target).map mark1) : Int) := by
    intro g hgT
    have hmk : List.countP (fun p => decide (p.1 = g ∧ p.2 = '-'))
        ((guess.zip target).map mark1) =
        List.countP (fun p => decide (p.1 = g ∧ ¬ p.1 = p.2)) (guess.zip target) := by
      rw [List.countP_map]
      refine List.countP_congr (fun p _ => ?_)
      simp only [Function.comp_apply, mark1, decide_eq_true_eq]
      by_cases hpe : p.1 = p.2
      · simp [hpe, plus_ne_dash]
      · simp [hpe]
    have hsplitc := countP_and_not (fun p : Char × Char => p.1 = g)
      (fun p : Char × Char => p.1 = p.2) (guess.zip target)
    have hfstc : List.countP (fun p : Char × Char => decide (p.1 = g))
        (guess.zip target) = guess.count g :=
      countP_fst_eq_count guess target g (le_of_eq hlen)
    have hhits : List.countP (fun p : Char × Char => decide (p.1 = g ∧ p.1 = p.2))
        (guess.zip target) = hitCount guess target g := rfl
    rw [hmk]
    unfold patFreq
    by_cases hmem : g ∈ guess
    · have hle : guess.count g ≤ target.count g := H g hmem hgT
      have hmin : min ((target.count g : Int)) ((guess.count g : Int)) =
          ((guess.count g : Int)) := by
        rw [min_eq_right]; exact_mod_cast hle
      rw [hmin]
      rw [hfstc, hhits] at hsplitc
      omega
    · have hcg : guess.count g = 0 := List.count_eq_zero.2 hmem
      have hz2 : List.countP (fun p => decide (p.1 = g ∧ ¬ p.1 = p.2))
          (guess.zip target) = 0 := by
        rw [List.countP_eq_zero]
        intro p hp
        simp only [decide_eq_true_eq]
        rintro ⟨h1, -⟩
        exact hmem (h1 ▸ (List.of_mem_zip hp).1)
      have hhit0 : hitCount guess target g = 0 := by
        have := hitCount_le_guess guess target hlen g
        omega
      rw [hz2, hhit0, hcg]
      have hmin0 : min ((target.count g : Int)) ((0 : Nat) : Int) = 0 := by
        rw [min_eq_right]
        · rfl
        · exact_mod_cast Nat.zero_le _
      rw [hmin0]
      rfl
  rw [pass2_eq_map (fun g => target.count g) (patFreq guess target)
    ((guess.zip target).map mark1) Hz Hc]
  rw [List.map_map, List.map_map]
  have hfun : ((Prod.snd ∘ (fun q : Char × Char =>
      if q.2 = '-' ∧ 0 < target.count q.1 then (q.1, '*') else q)) ∘ mark1) =
      (fun p : Char × Char =>
        if p.1 = p.2 then '+' else if 0 < target.count p.1 then '*' else '-') := by
    funext p
    simp only [Function.comp_apply, mark1]
    by_cases hpe : p.1 = p.2
    · simp [hpe, plus_ne_dash]
    · by_cases hT : 0 < target.count p.1
      · simp [hpe, hT]
      · simp [hpe, hT]
  rw [hfun]

theorem get_pattern_marks_capped_witness :
    (['A','L','L','E','E'] : Word).length = 5 ∧
      (['L','E','V','E','L'] : Word).length = 5 ∧
      confirmed ['A','L','L','E','E']
          (get_pattern_from_target ['A','L','L','E','E'] ['L','E','V','E','L']) 'E' ≤
        List.count 'E' ['L','E','V','E','L'] :=
  ⟨by decide, by decide,
    (get_pattern_marks_capped ['A','L','L','E','E'] ['L','E','V','E','L']
      (by decide) (by decide)).1 'E'⟩

/-- C1 counterexample: guess `AABBB` against secret `CCCCA`.  The target route
yields `[(A,NOT-0), (A,NOT-1), (A,MULT-1), (B,NONE)]` but the pattern is
`*----` (the single `A` budget is spent on position 0), so the pattern route
yields `[(A,NOT-0), (A,MULT-1), (B,NONE)]` — `(A,NOT-1)` is lost and the
claimed equality fails. -/
theorem codec_equiv_fails :
    get_constraints_from_target ['A','A','B','B','B'] ['C','C','C','C','A'] ≠
      get_constraints_from_pattern ['A','A','B','B','B']
        (get_pattern_from_target ['A','A','B','B','B'] ['C','C','C','C','A']) := by
  decide

/-- C1 (amended): for five-letter guess/secret pairs in which every guess
letter that occurs in the secret occurs in the guess at most as many times as
in the secret, deriving atoms directly from the secret equals deriving the
pattern first and then its atoms; without that bound the direct route can emit
additional `PositionMismatch` atoms for excess repeated letters. -/
theorem codec_equiv_of_counts_le (guess target : Word)
    (h5 : guess.length = 5) (h5t : target.length = 5)
    (H : ∀ g ∈ guess, 0 < target.count g → guess.count g ≤ target.count g) :
    get_constraints_from_target guess target =
      get_constraints_from_pattern guess (get_pattern_from_target guess target) := by
  have hlen : guess.length = target.length := by omega
  rw [pattern_char guess target hlen H]
  have hfst : (guess.zip target).map Prod.fst = guess :=
    List.map_fst_zip _ _ (le_of_eq hlen)
  have hz : guess.zip ((guess.zip target).map (fun p : Char × Char =>
      if p.1 = p.2 then '+' else if 0 < target.count p.1 then '*' else '-')) =
      (guess.zip target).map (fun p => (p.1,
        if p.1 = p.2 then '+' else if 0 < target.count p.1 then '*' else '-')) :=
    zip_map_of_map_fst _ hfst
  unfold get_constraints_from_target get_constraints_from_pattern
  congr 1
  · rw [hz, List.enum_map, List.filterMap_map]
    refine List.filterMap_congr (fun ip _ => ?_)
    obtain ⟨i, p⟩ := ip
    simp only [Function.comp_apply, Prod.map_apply, id_eq]
    by_cases hpe : p.1 = p.2
    · simp [hpe, star_ne_plus]
    · by_cases hT : 0 < target.count p.1
      · simp [hpe, hT, star_ne_plus]
      · simp [hpe, hT, dash_ne_plus, dash_ne_star]
  · refine List.filterMap_congr (fun g hg => ?_)
    have hgmem : g ∈ guess := mem_of_mem_distinctLetters hg
    have hconf : confirmed guess ((guess.zip target).map (fun p : Char × Char =>
        if p.1 = p.2 then '+' else if 0 < target.count p.1 then '*' else '-')) g =
        if 0 < target.count g then guess.count g else 0 := by
      unfold confirmed
      rw [hz, List.countP_map]
      by_cases hT : 0 < target.count g
      · rw [if_pos hT]
        have hcg : List.countP ((fun p : Char × Char =>
            decide (p.1 = g ∧ (p.2 = '+' ∨ p.2 = '*'))) ∘ (fun p => (p.1,
              if p.1 = p.2 then '+' else if 0 < target.count p.1 then '*' else '-')))
            (guess.zip target) =
            List.countP (fun p : Char × Char => decide (p.1 = g)) (guess.zip target) := by
          refine List.countP_congr (fun p _ => ?_)
          simp only [Function.comp_apply, decide_eq_true_eq]
          constructor
          · rintro ⟨h1, -⟩
            exact h1
          · intro h1
            refine ⟨h1, ?_⟩
            by_cases hpe : p.1 = p.2
            · left
              rw [if_pos hpe]
            · right
              rw [if_neg hpe, if_pos (by rw [h1]; exact hT)]
        rw [hcg, countP_fst_eq_count guess target g (le_of_eq hlen)]
      · rw [if_neg hT]
        rw [List.countP_eq_zero]
        intro p hp
        simp only [Function.comp_apply, decide_eq_true_eq]
        rintro ⟨h1, h2⟩
        by_cases hpe : p.1 = p.2
        · have hmem2 : g ∈ target := by
            have := (List.of_mem_zip hp).2
            rw [← hpe, h1] at this
            exact this
          exact hT (List.count_pos_iff.2 hmem2)
        · rw [if_neg hpe] at h2
          by_cases hTp : 0 < target.count p.1
          · exact hT (by rw [← h1]; exact hTp)
          · rw [if_neg hTp] at h2
            rcases h2 with h2 | h2
            · exact dash_ne_plus h2
            · exact dash_ne_star h2
    rw [hconf]
    by_cases hT : 0 < target.count g
    · rw [if_pos hT]
      have hcg1 : 0 < guess.count g := List.count_pos_iff.2 hgmem
      have hle := H g hgmem hT
      rw [if_neg (show ¬ target.count g = 0 by omega),
        if_neg (show ¬ guess.count g = 0 by omega),
        if_neg (not_lt.2 hle), if_neg (lt_irrefl _)]
    · rw [if_neg hT]
      have hT0 : target.count g = 0 := by omega
      rw [if_pos hT0, if_pos rfl]

theorem codec_equiv_of_counts_le_witness :
    ("CRANE".toList : Word).length = 5 ∧ ("TRACE".toList : Word).length = 5 ∧
      get_constraints_from_target "CRANE".toList "TRACE".toList =
        get_constraints_from_pattern "CRANE".toList
          (get_pattern_from_target "CRANE".toList "TRACE".toList) :=
  ⟨by decide, by decide,
    codec_equiv_of_counts_le "CRANE".toList "TRACE".toList (by decide) (by decide)
      (by decide)⟩

/-! ## C3: pruning never changes the returned guess

Structure of the argument: each histogram term is non-negative, so a pruned
run is bounded by the full run, and a run that broke early exceeds
`min_score + 0.1`.  `min_score` is the running minimum of recorded scores;
relative to the true minimum `M` of the full scores, every recorded score is
`≥ M` and equals `M` exactly when the guess's full score is `M` (a true
minimizer can never be pruned, since its partial sums never exceed
`M + 0.1 ≤ min_score + 0.1`).  The stable argmin of the recorded list
therefore coincides with the stable argmin of the fully-evaluated list. -/

theorem patternTerm_nonneg (g : Word) (pool : List Word) (pf : List Char × Nat) :
    0 ≤ patternTerm g pool pf := by
  unfold patternTerm
  apply mul_nonneg
  · exact Nat.cast_nonneg _
  · exact div_nonneg (Nat.cast_nonneg _) (Nat.cast_nonneg _)

theorem exceeds_none (acc : ℚ) : exceeds acc none = false := rfl

theorem le_prunedRun_none (g : Word) (pool : List Word) :
    ∀ (l : List (List Char × Nat)) (acc : ℚ), acc ≤ prunedRun g pool none l acc
  | [], _ => le_refl _
  | pf :: rest, acc => by
    simp only [prunedRun]
    rw [if_neg (by rw [exceeds_none]; exact Bool.false_ne_true)]
    calc acc ≤ acc + patternTerm g pool pf := by
          have := patternTerm_nonneg g pool pf
          linarith
      _ ≤ _ := le_prunedRun_none g pool rest (acc + patternTerm g pool pf)

theorem prunedRun_le_none (g : Word) (pool : List Word) :
    ∀ (l : List (List Char × Nat)) (acc : ℚ) (m : Option ℚ),
      prunedRun g pool m l acc ≤ prunedRun g pool none l acc
  | [], _, _ => le_refl _
  | pf :: rest, acc, m => by
    simp only [prunedRun]
    rw [if_neg (show ¬ exceeds (acc + patternTerm g pool pf) none = true by
      rw [exceeds_none]; exact Bool.false_ne_true)]
    by_cases hex : exceeds (acc + patternTerm g pool pf) m = true
    · rw [if_pos hex]
      exact le_prunedRun_none g pool rest _
    · rw [if_neg hex]
      exact prunedRun_le_none g pool rest _ m

theorem prunedRun_dichotomy (g : Word) (pool : List Word) :
    ∀ (l : List (List Char × Nat)) (acc : ℚ) (m : Option ℚ),
      prunedRun g pool m l acc = prunedRun g pool none l acc ∨
        ∃ q, m = some q ∧ q + 1 / 10 < prunedRun g pool m l acc
  | [], _, _ => Or.inl rfl
  | pf :: rest, acc, m => by
    simp only [prunedRun]
    rw [if_neg (show ¬ exceeds (acc + patternTerm g pool pf) none = true by
      rw [exceeds_none]; exact Bool.false_ne_true)]
    by_cases hex : exceeds (acc + patternTerm g pool pf) m = true
    · rw [if_pos hex]
      right
      cases m with
      | none => rw [exceeds_none] at hex; exact absurd hex Bool.false_ne_true
      | some q =>
        refine ⟨q, rfl, ?_⟩
        unfold exceeds at hex
        exact of_decide_eq_true hex
    · rw [if_neg hex]
      exact prunedRun_dichotomy g pool rest (acc + patternTerm g pool pf) m

theorem score_pruned_le_full (g : Word) (pool : List Word) (m : Option ℚ) :
    score_pruned g pool m ≤ score_full g pool :=
  prunedRun_le_none g pool (sortedHist g pool) 0 m

/-- The key per-guess fact: when the running minimum is `≥ M` and the guess's
full score is `≥ M`, the recorded (possibly pruned) score is `≥ M` and hits
`M` exactly when the full score does. -/
theorem score_pruned_key (pool : List Word) (g : Word) (m : Option ℚ) (M : ℚ)
    (hm : m = none ∨ ∃ q, m = some q ∧ M ≤ q)
    (hMf : M ≤ score_full g pool) :
    M ≤ score_pruned g pool m ∧ (score_pruned g pool m = M ↔ score_full g pool = M) := by
  have hle : score_pruned g pool m ≤ score_full g pool := score_pruned_le_full g pool m
  rcases prunedRun_dichotomy g pool (sortedHist g pool) 0 m with heq | ⟨q, hq, hlt⟩
  · have heq2 : score_pruned g pool m = score_full g pool := heq
    rw [heq2]
    exact ⟨hMf, Iff.rfl⟩
  · rcases hm with rfl | ⟨q', hq', hMq⟩
    · exact absurd hq (by simp)
    · rw [hq'] at hq
      injection hq with hqq
      subst hqq
      have hlt2 : M < score_pruned g pool m := by
        have : score_pruned g pool m = prunedRun g pool m (sortedHist g pool) 0 := rfl
        rw [this]
        linarith
      constructor
      · exact le_of_lt hlt2
      · constructor
        · intro h
          exact absurd h (by linarith)
        · intro h
          rw [h] at hle
          linarith

theorem updMin_mOk (M : ℚ) (s : ℚ) (m : Option ℚ)
    (hm : m = none ∨ ∃ q, m = some q ∧ M ≤ q) (hs : M ≤ s) :
    updMin s m = none ∨ ∃ q, updMin s m = some q ∧ M ≤ q := by
  rcases hm with rfl | ⟨q, rfl, hq⟩
  · exact Or.inr ⟨s, rfl, hs⟩
  · unfold updMin
    by_cases h : s < q
    · exact Or.inr ⟨s, by simp [h], hs⟩
    · exact Or.inr ⟨q, by simp [h], hq⟩

theorem scoreLoop_forall₂ (pool : List Word) (M : ℚ) :
    ∀ (gs : List Word) (m : Option ℚ),
      (m = none ∨ ∃ q, m = some q ∧ M ≤ q) →
      (∀ g ∈ gs, M ≤ score_full g pool) →
      List.Forall₂ (fun (a b : Word × ℚ) =>
          a.1 = b.1 ∧ M ≤ a.2 ∧ M ≤ b.2 ∧ (a.2 = M ↔ b.2 = M))
        (scoreLoop pool gs m) (gs.map fun g => (g, score_full g pool))
  | [], _, _, _ => List.Forall₂.nil
  | g :: gs, m, hm, hbound => by
    simp only [scoreLoop, List.map_cons]
    have hMg : M ≤ score_full g pool := hbound g (List.mem_cons_self _ _)
    have hkey := score_pruned_key pool g m M hm hMg
    refine List.Forall₂.cons ⟨rfl, hkey.1, hMg, hkey.2⟩ ?_
    exact scoreLoop_forall₂ pool M gs (updMin (score_pruned g pool m) m)
      (updMin_mOk M (score_pruned g pool m) m hm hkey.1)
      (fun g' hg' => hbound g' (List.mem_cons_of_mem _ hg'))

theorem pickMin_mem : ∀ {l : List (Word × ℚ)} {y : Word × ℚ}, pickMin l = some y → y ∈ l
  | [], y, h => by simp [pickMin] at h
  | x :: rest, y, h => by
    cases hR : pickMin rest with
    | none =>
      simp only [pickMin, hR] at h
      injection h with h
      exact h ▸ List.mem_cons_self _ _
    | some z =>
      simp only [pickMin, hR] at h
      by_cases hle : x.2 ≤ z.2
      · rw [if_pos hle] at h
        injection h with h
        exact h ▸ List.mem_cons_self _ _
      · rw [if_neg hle] at h
        injection h with h
        exact List.mem_cons_of_mem _ (h ▸ pickMin_mem hR)

theorem pickMin_eq_none : ∀ {l : List (Word × ℚ)}, pickMin l = none ↔ l = []
  | [] => by simp [pickMin]
  | x :: rest => by
    constructor
    · intro h
      cases hR : pickMin rest with
      | none =>
        simp only [pickMin, hR] at h
        exact absurd h (by simp)
      | some z =>
        simp only [pickMin, hR] at h
        by_cases hle : x.2 ≤ z.2
        · rw [if_pos hle] at h; exact absurd h (by simp)
        · rw [if_neg hle] at h; exact absurd h (by simp)
    · intro h
      exact absurd h (by simp)

theorem forall₂_bound_left (M : ℚ) :
    ∀ {R F : List (Word × ℚ)},
      List.Forall₂ (fun (a b : Word × ℚ) =>
        a.1 = b.1 ∧ M ≤ a.2 ∧ M ≤ b.2 ∧ (a.2 = M ↔ b.2 = M)) R F →
      ∀ p ∈ R, M ≤ p.2 := by
  intro R F h
  induction h with
  | nil => intro p hp; exact absurd hp (List.not_mem_nil _)
  | cons hab _ ih =>
    intro p hp
    rcases List.mem_cons.1 hp with rfl | hp
    · exact hab.2.1
    · exact ih p hp

theorem forall₂_bound_right (M : ℚ) :
    ∀ {R F : List (Word × ℚ)},
      List.Forall₂ (fun (a b : Word × ℚ) =>
        a.1 = b.1 ∧ M ≤ a.2 ∧ M ≤ b.2 ∧ (a.2 = M ↔ b.2 = M)) R F →
      ∀ p ∈ F, M ≤ p.2 := by
  intro R F h
  induction h with
  | nil => intro p hp; exact absurd hp (List.not_mem_nil _)
  | cons hab _ ih =>
    intro p hp
    rcases List.mem_cons.1 hp with rfl | hp
    · exact hab.2.2.1
    · exact ih p hp

/-- Lockstep comparison of the two stable argmin computations: when the
recorded list and the fully-evaluated list are pointwise related and some
entry attains `M`, both `pickMin`s return the SAME word, with value `M`. -/
theorem pickMin_lockstep (M : ℚ) :
    ∀ (R F : List (Word × ℚ)),
      List.Forall₂ (fun (a b : Word × ℚ) =>
        a.1 = b.1 ∧ M ≤ a.2 ∧ M ≤ b.2 ∧ (a.2 = M ↔ b.2 = M)) R F →
      (∃ p ∈ F, p.2 = M) →
      ∃ w, pickMin R = some (w, M) ∧ pickMin F = some (w, M)
  | [], [], _, hex => by simp at hex
  | [], b :: F, h, _ => nomatch h
  | a :: R, [], h, _ => nomatch h
  | a :: R, b :: F, h, hex => by
    obtain ⟨hab, hRF⟩ := List.forall₂_cons.1 h
    by_cases hb : b.2 = M
    · have ha : a.2 = M := hab.2.2.2.2 hb
      have hae : a = (a.1, M) := Prod.ext rfl ha
      have hbe : b = (a.1, M) := Prod.ext hab.1.symm hb
      refine ⟨a.1, ?_, ?_⟩
      · rw [hae]
        cases hR : pickMin R with
        | none => simp [pickMin, hR]
        | some y =>
          have hy : M ≤ y.2 := forall₂_bound_left M hRF y (pickMin_mem hR)
          simp [pickMin, hR, hy]
      · rw [hbe]
        cases hF : pickMin F with
        | none => simp [pickMin, hF]
        | some z =>
          have hz : M ≤ z.2 := forall₂_bound_right M hRF z (pickMin_mem hF)
          simp [pickMin, hF, hz]
    · have ha : ¬ a.2 = M := fun hc => hb (hab.2.2.2.1 hc)
      have hexF : ∃ p ∈ F, p.2 = M := by
        rcases hex with ⟨p, hp, hpM⟩
        rcases List.mem_cons.1 hp with rfl | hp
        · exact absurd hpM hb
        · exact ⟨p, hp, hpM⟩
      obtain ⟨w, hwR, hwF⟩ := pickMin_lockstep M R F hRF hexF
      have haM : M < a.2 := lt_of_le_of_ne hab.2.1 (fun hc => ha hc.symm)
      have hbM : M < b.2 := lt_of_le_of_ne hab.2.2.1 (fun hc => hb hc.symm)
      refine ⟨w, ?_, ?_⟩
      · simp [pickMin, hwR, not_le.2 haM]
      · simp [pickMin, hwF, not_le.2 hbM]

theorem exists_argmin (pool : List Word) :
    ∀ (l : List Word), l ≠ [] →
      ∃ a ∈ l, ∀ b ∈ l, score_full a pool ≤ score_full b pool
  | [], h => absurd rfl h
  | [g], _ => ⟨g, List.mem_singleton_self _, fun b hb => by
      rw [List.mem_singleton.1 hb]⟩
  | g :: g' :: gs, _ => by
    obtain ⟨a, ha, hmin⟩ := exists_argmin pool (g' :: gs) (by simp)
    by_cases hle : score_full g pool ≤ score_full a pool
    · refine ⟨g, List.mem_cons_self _ _, fun b hb => ?_⟩
      rcases List.mem_cons.1 hb with rfl | hb
      · exact le_refl _
      · exact hle.trans (hmin b hb)
    · refine ⟨a, List.mem_cons_of_mem _ ha, fun b hb => ?_⟩
      rcases List.mem_cons.1 hb with rfl | hb
      · exact (not_le.1 hle).le
      · exact hmin b hb

/-- C3 (confirmed): on every move other than the first and last, with a pool
of size greater than 2, the guess `next_guess` returns is exactly the guess
the exhaustive (no-pruning) evaluation returns, and it attains the minimum
fully-computed expected remaining-pool-size score over the guess set — the
early-exit rule never changes the selection. -/
theorem next_guess_pruning_equiv (cache : Option (List Word))
    (allWords pool : List Word) (move : Nat) (is_hard_mode : Bool)
    (hm1 : 1 ≤ move) (hm4 : move ≤ 4) (hp : 2 < pool.length)
    (hgs : (if is_hard_mode then pool else allWords) ≠ []) :
    next_guess cache allWords pool move is_hard_mode =
      next_guess_exhaustive (if is_hard_mode then pool else allWords) pool ∧
    ∀ w, next_guess cache allWords pool move is_hard_mode = some w →
      w ∈ (if is_hard_mode then pool else allWords) ∧
      ∀ g ∈ (if is_hard_mode then pool else allWords),
        score_full w pool ≤ score_full g pool := by
  have hng : next_guess cache allWords pool move is_hard_mode =
      next_guess_search (if is_hard_mode then pool else allWords) pool := by
    unfold next_guess
    rw [if_neg (fun hc : move = 0 ∧ cache.isSome = true => absurd hc.1 (by omega)),
      if_neg (show ¬ move = 5 by omega),
      if_neg (show ¬ pool.length ≤ 2 by omega)]
  obtain ⟨gstar, hgstar, hmin⟩ :=
    exists_argmin pool (if is_hard_mode then pool else allWords) hgs
  have hF2 := scoreLoop_forall₂ pool (score_full gstar pool)
    (if is_hard_mode then pool else allWords) none (Or.inl rfl) hmin
  have hex : ∃ p ∈ (if is_hard_mode then pool else allWords).map
      (fun g => (g, score_full g pool)), p.2 = score_full gstar pool :=
    ⟨(gstar, score_full gstar pool), List.mem_map.2 ⟨gstar, hgstar, rfl⟩, rfl⟩
  obtain ⟨w, hwR, hwF⟩ := pickMin_lockstep (score_full gstar pool) _ _ hF2 hex
  have hwmem : ((w, score_full gstar pool) : Word × ℚ) ∈
      (if is_hard_mode then pool else allWords).map (fun g => (g, score_full g pool)) :=
    pickMin_mem hwF
  obtain ⟨g', hg', heq'⟩ := List.mem_map.1 hwmem
  have hg'w : g' = w := congrArg Prod.fst heq'
  have hscorew : score_full w pool = score_full gstar pool := by
    rw [← hg'w]
    exact congrArg Prod.snd heq'
  constructor
  · rw [hng]
    unfold next_guess_search next_guess_exhaustive
    rw [hwR, hwF]
  · intro w' hw'
    rw [hng] at hw'
    unfold next_guess_search at hw'
    rw [hwR] at hw'
    simp only [Option.map_some'] at hw'
    injection hw' with hw'
    subst hw'
    constructor
    · rw [← hg'w]
      exact hg'
    · intro g hg
      rw [hscorew]
      exact hmin g hg

theorem next_guess_pruning_equiv_witness :
    2 < ([wABCDE, wABCDF, wFGHIJ] : List Word).length ∧
      next_guess none [wABCDE, wABCDF, wFGHIJ] [wABCDE, wABCDF, wFGHIJ] 1 false =
        next_guess_exhaustive [wABCDE, wABCDF, wFGHIJ] [wABCDE, wABCDF, wFGHIJ] :=
  ⟨by decide,
    (next_guess_pruning_equiv none [wABCDE, wABCDF, wFGHIJ]
      [wABCDE, wABCDF, wFGHIJ] 1 false (by decide) (by decide) (by decide)
      (by decide)).1⟩

end Wordle
